import Mathlib

/-!
Verification development for the EVE task manager core
(`src/core/task.py`, `src/core/task_manager.py`).

The Python code is shallowly embedded: the `TaskManager`'s mutable
`self.tasks` list becomes an explicit `List Task` threaded through every
operation; the derived `self._task_map` dictionary becomes the lookup
function `get_task_by_id` (a `List.find?` over the list); Python `set`s
of strings become `List String` mutated with duplicate-avoiding
`List.insert` / `List.erase`; wall-clock timestamps become an explicit
`now : Nat` parameter; console messages that distinguish outcomes become
constructors of per-operation result types, and the `Optional[Task]` /
`bool` value actually returned to the caller is recovered from the
result via `retVal` / `retBool` projections.
-/

namespace EVE

/-- The two statuses a task can have (`Task.VALID_STATUSES`:
`"Pendente"`, `"Concluída"`). Statuses are strings in the source,
validated against that closed list; here they are a closed enumeration. -/
inductive Status where
  | pendente
  | concluida
deriving DecidableEq, Repr

/-- Embedding of the `Task` class (`src/core/task.py`). `due_date`,
`creation_date` and `completion_date` are abstract instants (`Nat`);
the source stores `datetime` values but never computes with them beyond
presence/absence and formatting. -/
structure Task where
  task_id : String
  title : String
  description : String
  priority : String
  category : String
  status : Status
  creation_date : Nat
  completion_date : Option Nat
  due_date : Option Nat
  eisenhower_quadrant : Option String
  depends_on_ids : List String
  projects : List String
  contexts : List String
deriving DecidableEq, Repr

/-- `Task.VALID_PRIORITIES`. -/
def VALID_PRIORITIES : List String := ["Alta", "Média", "Baixa"]

/-- Keys of `Task.EISENHOWER_QUADRANTS`. -/
def EISENHOWER_KEYS : List String := ["Q1", "Q2", "Q3", "Q4"]

/-- `Task.mark_complete` (task.py lines 103-108): only a `Pendente`
task changes; it becomes `Concluída` with the completion instant set. -/
def Task.mark_complete (t : Task) (now : Nat) : Task :=
  if t.status = .pendente then
    { t with status := .concluida, completion_date := some now }
  else t

/-- `Task.mark_pending` (task.py lines 110-114): only a `Concluída`
task changes; it becomes `Pendente` with the completion instant cleared. -/
def Task.mark_pending (t : Task) : Task :=
  if t.status = .concluida then
    { t with status := .pendente, completion_date := none }
  else t

/-- Embedding of `Task.__init__` (task.py lines 40-101).
Validations that raise `ValueError` become `Except.error`; the
date-string parse failure is not modelled (`due_date` arrives already
parsed). Lines 92-95 adjust the completion instant to match the status:
a `Concluída` task without one gets `now`, a `Pendente` task has it
cleared. -/
def Task.init (title description : String) (due_date : Option Nat)
    (priority category : String) (status : Status) (task_id : String)
    (creation_date : Option Nat) (completion_date : Option Nat)
    (eisenhower_quadrant : Option String)
    (depends_on_ids projects contexts : List String) (now : Nat) :
    Except String Task :=
  if title = "" then .error "O título da tarefa não pode ser vazio."
  else if priority ∉ VALID_PRIORITIES then .error "Prioridade inválida"
  else if eisenhower_quadrant.any (fun q => decide (q ∉ EISENHOWER_KEYS)) then
    .error "Quadrante Eisenhower inválido"
  else
    let cd :=
      if status = .concluida ∧ completion_date = none then some now
      else if status = .pendente then none
      else completion_date
    .ok {
      task_id := task_id
      title := title
      description := description
      priority := priority
      category := category
      status := status
      creation_date := creation_date.getD now
      completion_date := cd
      due_date := due_date
      eisenhower_quadrant := eisenhower_quadrant
      depends_on_ids := depends_on_ids
      projects := projects
      contexts := contexts }

/-- The registry state: the `TaskManager.tasks` list. The parallel
`_task_map` dictionary is derived data, embedded as `get_task_by_id`. -/
abbrev Registry := List Task

/-- `TaskManager.get_task_by_id` / `self._task_map.get`. -/
def get_task_by_id (σ : Registry) (i : String) : Option Task :=
  σ.find? (fun t => t.task_id == i)

/-- In-place mutation of the (unique) task object with a given id,
embedded as a map over the registry list. -/
def updateTask (σ : Registry) (i : String) (f : Task → Task) : Registry :=
  σ.map (fun t => if t.task_id == i then f t else t)

/-- `TaskManager._normalize_tag` whitespace class: Python `\s` on the
ASCII range (space, tab, newline, carriage return, vertical tab,
form feed). -/
def isPySpace (c : Char) : Bool :=
  c == ' ' || c == '\t' || c == '\n' || c == '\r' ||
  c == Char.ofNat 11 || c == Char.ofNat 12

/-- `re.sub(r'\s+', ' ', ·)` on a character list: every maximal run of
whitespace becomes a single space. The flag records whether the
previous character was part of a whitespace run. -/
def collapseWsAux : Bool → List Char → List Char
  | _, [] => []
  | prevWs, c :: rest =>
    if isPySpace c then
      if prevWs then collapseWsAux true rest
      else ' ' :: collapseWsAux true rest
    else c :: collapseWsAux false rest

/-- Python `str.strip()`: drop whitespace from both ends. -/
def stripChars (cs : List Char) : List Char :=
  ((cs.dropWhile isPySpace).reverse.dropWhile isPySpace).reverse

/-- `TaskManager._normalize_tag` (task_manager.py lines 43-45):
`re.sub(r'\s+', ' ', tag).strip().lower()`. -/
def normalize_tag (tag : String) : String :=
  String.mk ((stripChars (collapseWsAux false tag.data)).map Char.toLower)

/-- All task ids that can ever be fed to the depth-first search: ids of
live tasks together with every id mentioned in some `depends_on_ids`
set. Used only as the termination measure of the search. -/
def idUniverse (σ : Registry) : Finset String :=
  (σ.map Task.task_id).toFinset ∪ (σ.flatMap Task.depends_on_ids).toFinset

theorem mem_idUniverse_of_get {σ : Registry} {i : String} {t : Task}
    (h : get_task_by_id σ i = some t) : i ∈ idUniverse σ := by
  have hmem := List.mem_of_find?_eq_some h
  have hid : t.task_id = i := by
    have := List.find?_some h
    simpa using this
  simp only [idUniverse, Finset.mem_union, List.mem_toFinset, List.mem_map]
  exact Or.inl ⟨t, hmem, hid⟩

theorem mem_idUniverse_of_dep {σ : Registry} {i d : String} {t : Task}
    (h : get_task_by_id σ i = some t) (hd : d ∈ t.depends_on_ids) :
    d ∈ idUniverse σ := by
  have hmem := List.mem_of_find?_eq_some h
  simp only [idUniverse, Finset.mem_union, List.mem_toFinset, List.mem_flatMap]
  exact Or.inr ⟨t, hmem, hd⟩

/-- `TaskManager._check_circular_dependency` (task_manager.py lines
31-41): depth-first search from `dependency_id` along `depends_on_ids`
edges, returning `true` as soon as an edge target equals `task_id`.
Each recursive call receives a copy of the visited set extended with
the node being expanded (`visited.copy()` in the source), and an id
with no live task terminates its branch. -/
def check_circular_dependency (σ : Registry) (task_id : String)
    (dependency_id : String) (visited : List String) : Bool :=
  match hfind : get_task_by_id σ dependency_id with
  | none => false
  | some task =>
    task.depends_on_ids.attach.any (fun d =>
      if d.1 = task_id then true
      else if hv : d.1 ∈ visited.insert dependency_id then false
      else check_circular_dependency σ task_id d.1
        (visited.insert dependency_id))
termination_by ((idUniverse σ) \ ((visited.insert dependency_id).toFinset)).card
decreasing_by
  have hdU : d.1 ∈ idUniverse σ := mem_idUniverse_of_dep hfind d.2
  have hnot : d.1 ∉ ((visited.insert dependency_id).toFinset) := by
    simpa using hv
  have hins : (((visited.insert dependency_id).insert d.1).toFinset) =
      insert d.1 ((visited.insert dependency_id).toFinset) := by
    rw [List.insert_of_not_mem hv, List.toFinset_cons]
  rw [hins, Finset.sdiff_insert]
  exact Finset.card_erase_lt_of_mem (Finset.mem_sdiff.mpr ⟨hdU, hnot⟩)

/-- Unfolding equation for the cycle check, with the termination
bookkeeping (`dite`) erased. -/
theorem ccd_unfold (σ : Registry) (tid did : String) (visited : List String) :
    check_circular_dependency σ tid did visited =
      match get_task_by_id σ did with
      | none => false
      | some task =>
        task.depends_on_ids.attach.any (fun d =>
          if d.1 = tid then true
          else if d.1 ∈ visited.insert did then false
          else check_circular_dependency σ tid d.1 (visited.insert did)) := by
  rw [check_circular_dependency.eq_def]
  cases hget : get_task_by_id σ did with
  | none => rfl
  | some task => simp only [dite_eq_ite]

/-- One dependency edge of the registry's graph: task `a` is live and
lists `b` among its `depends_on_ids`. -/
def depStep (σ : Registry) (a b : String) : Prop :=
  ∃ t, get_task_by_id σ a = some t ∧ b ∈ t.depends_on_ids

/-- `b` is reachable from `a` by following at least one `dependsOn`
edge. -/
def Reaches (σ : Registry) (a b : String) : Prop :=
  Relation.TransGen (depStep σ) a b

/-- The dependency graph has no directed cycle. -/
def Acyclic (σ : Registry) : Prop := ∀ a, ¬ Reaches σ a a

/-- A concrete dependency path from `a` to `b` whose intermediate
nodes are `mids` (in order, excluding both endpoints). -/
inductive DepPath (σ : Registry) : String → List String → String → Prop
  | single {a b : String} : depStep σ a b → DepPath σ a [] b
  | cons {a c b : String} {mids : List String} :
      depStep σ a c → DepPath σ c mids b → DepPath σ a (c :: mids) b

theorem DepPath.head_live {σ : Registry} {a b : String} {mids : List String}
    (p : DepPath σ a mids b) : ∃ t, get_task_by_id σ a = some t := by
  cases p with
  | single h => exact ⟨h.choose, h.choose_spec.1⟩
  | cons h _ => exact ⟨h.choose, h.choose_spec.1⟩

theorem DepPath.snoc {σ : Registry} {a b c : String} {mids : List String}
    (p : DepPath σ a mids b) (h : depStep σ b c) :
    DepPath σ a (mids ++ [b]) c := by
  induction p with
  | single hab => exact .cons hab (.single h)
  | cons hac _ ih => exact .cons hac (ih h)

theorem reaches_iff_depPath {σ : Registry} {a b : String} :
    Reaches σ a b ↔ ∃ mids, DepPath σ a mids b := by
  constructor
  · intro h
    induction h with
    | single hs => exact ⟨[], .single hs⟩
    | tail _ hs ih =>
      obtain ⟨mids, p⟩ := ih
      exact ⟨mids ++ [_], p.snoc hs⟩
  · rintro ⟨mids, p⟩
    induction p with
    | single hs => exact .single hs
    | cons hs _ ih => exact .head hs ih

theorem DepPath.suffix {σ : Registry} {b c : String} {post : List String} :
    ∀ {a : String} (pre : List String),
      DepPath σ a (pre ++ c :: post) b → DepPath σ c post b := by
  intro a pre
  induction pre generalizing a with
  | nil =>
    intro p
    cases p with
    | cons h q => exact q
  | cons x pre ih =>
    intro p
    cases p with
    | cons h q => exact ih q

/-- Any dependency path can be shortened to one (over the same nodes)
that never revisits its own start. -/
theorem DepPath.avoid_start {σ : Registry} {b : String} :
    ∀ (n : Nat) (mids : List String) (a : String), mids.length ≤ n →
      DepPath σ a mids b →
      ∃ mids', DepPath σ a mids' b ∧ (∀ m ∈ mids', m ∈ mids) ∧ a ∉ mids' := by
  intro n
  induction n with
  | zero =>
    intro mids a hlen p
    have : mids = [] := List.eq_nil_of_length_eq_zero (Nat.le_zero.mp hlen)
    subst this
    exact ⟨[], p, by simp, by simp⟩
  | succ n ih =>
    intro mids a hlen p
    by_cases ha : a ∈ mids
    · obtain ⟨pre, post, rfl⟩ := List.append_of_mem ha
      have q : DepPath σ a post b := p.suffix pre
      have hlen' : post.length ≤ n := by
        have := hlen
        simp only [List.length_append, List.length_cons] at this
        omega
      obtain ⟨mids', q', hsub, hnot⟩ := ih post a hlen' q
      exact ⟨mids', q', fun m hm => by
        have := hsub m hm
        simp [this], hnot⟩
    · exact ⟨mids, p, fun m hm => hm, ha⟩

/-- Soundness of the depth-first search: a `true` answer exhibits
reachability of `task_id` from `dependency_id`. -/
theorem ccd_sound {σ : Registry} {tid : String} :
    ∀ (did : String) (visited : List String),
      check_circular_dependency σ tid did visited = true →
      Reaches σ did tid := by
  intro did₀ visited₀
  induction did₀, visited₀ using check_circular_dependency.induct σ tid with
  | case1 did visited hget =>
    intro h
    rw [ccd_unfold, hget] at h
    exact absurd h (by simp)
  | case2 did visited task hget ih =>
    intro h
    rw [ccd_unfold, hget] at h
    obtain ⟨d, hd, hpred⟩ := List.any_eq_true.mp h
    by_cases htid : d.1 = tid
    · exact Relation.TransGen.single ⟨task, hget, htid ▸ d.2⟩
    · by_cases hv : d.1 ∈ visited.insert did
      · simp [htid, hv] at hpred
      · have hrec : check_circular_dependency σ tid d.1
            (visited.insert did) = true := by
          simpa [htid, hv] using hpred
        exact Relation.TransGen.head ⟨task, hget, d.2⟩ (ih d hv hrec)

/-- Completeness of the depth-first search: a path to `tid` whose
intermediate nodes dodge the visited set forces a `true` answer.
The induction is on the number of ids not yet visited. -/
theorem ccd_complete {σ : Registry} {tid : String} :
    ∀ (n : Nat) (did : String) (visited : List String),
      ((idUniverse σ) \ ((visited.insert did).toFinset)).card ≤ n →
      (∃ mids, DepPath σ did mids tid ∧
        ∀ m ∈ mids, m ∉ visited.insert did) →
      check_circular_dependency σ tid did visited = true := by
  intro n
  induction n with
  | zero =>
    intro did visited hcard ⟨mids, p, havoid⟩
    obtain ⟨t, hget⟩ := p.head_live
    -- the whole universe is visited, yet a path exists: handle the two
    -- path shapes directly; only the first edge is needed.
    rw [ccd_unfold, hget]
    cases p with
    | single h =>
      obtain ⟨t', hget', htid⟩ := h
      rw [hget] at hget'
      cases hget'
      refine List.any_eq_true.mpr ⟨⟨tid, htid⟩, List.mem_attach _ _, by simp⟩
    | cons h q =>
      -- the first intermediate node is live and unvisited, which
      -- contradicts the exhausted cardinality
      rename_i c mids'
      obtain ⟨t', hget', hc⟩ := h
      rw [hget] at hget'
      cases hget'
      obtain ⟨u, hu⟩ := q.head_live
      have hcU : c ∈ idUniverse σ := mem_idUniverse_of_get hu
      have hcV : c ∉ (visited.insert did).toFinset := by
        have := havoid c (by simp)
        simpa using this
      have : 0 < ((idUniverse σ) \ ((visited.insert did).toFinset)).card :=
        Finset.card_pos.mpr ⟨c, Finset.mem_sdiff.mpr ⟨hcU, hcV⟩⟩
      omega
  | succ n ih =>
    intro did visited hcard ⟨mids, p, havoid⟩
    obtain ⟨t, hget⟩ := p.head_live
    rw [ccd_unfold, hget]
    cases p with
    | single h =>
      obtain ⟨t', hget', htid⟩ := h
      rw [hget] at hget'
      cases hget'
      refine List.any_eq_true.mpr ⟨⟨tid, htid⟩, List.mem_attach _ _, by simp⟩
    | cons h q =>
      rename_i c mids'
      obtain ⟨t', hget', hc⟩ := h
      rw [hget] at hget'
      cases hget'
      by_cases htid : c = tid
      · subst htid
        refine List.any_eq_true.mpr ⟨⟨c, hc⟩, List.mem_attach _ _, by simp⟩
      · have hcV : c ∉ visited.insert did := havoid c (by simp)
        refine List.any_eq_true.mpr ⟨⟨c, hc⟩, List.mem_attach _ _, ?_⟩
        simp only [htid, if_false, hcV, ite_false]
        -- recursive call: shorten the tail path to avoid `c`, then
        -- apply the induction hypothesis on the smaller unvisited set
        obtain ⟨mids'', q', hsub, hcnot⟩ :=
          DepPath.avoid_start mids'.length mids' c (Nat.le_refl _) q
        obtain ⟨u, hu⟩ := q.head_live
        have hcU : c ∈ idUniverse σ := mem_idUniverse_of_get hu
        have hcVf : c ∉ ((visited.insert did).toFinset) := by simpa using hcV
        have hins : (((visited.insert did).insert c).toFinset) =
            insert c ((visited.insert did).toFinset) := by
          rw [List.insert_of_not_mem hcV, List.toFinset_cons]
        have hlt : ((idUniverse σ) \
            (((visited.insert did).insert c).toFinset)).card ≤ n := by
          rw [hins, Finset.sdiff_insert]
          have := Finset.card_erase_lt_of_mem
            (Finset.mem_sdiff.mpr ⟨hcU, hcVf⟩)
          omega
        refine ih c (visited.insert did) hlt ⟨mids'', q', ?_⟩
        intro m hm
        have hmm := hsub m hm
        intro hmem
        rcases List.mem_insert_iff.mp hmem with rfl | hmem'
        · exact hcnot hm
        · exact havoid m (by simp [hmm]) hmem'

/-- The top-level cycle check (`visited = ∅`) decides reachability:
`_check_circular_dependency(task_id, dependency_id)` is `True` exactly
when `task_id` is reachable from `dependency_id` along `dependsOn`
edges. -/
theorem ccd_iff_reaches (σ : Registry) (tid did : String) :
    check_circular_dependency σ tid did [] = true ↔ Reaches σ did tid := by
  constructor
  · exact ccd_sound did []
  · intro h
    obtain ⟨mids, p⟩ := reaches_iff_depPath.mp h
    obtain ⟨mids', p', hsub, hnot⟩ :=
      DepPath.avoid_start mids.length mids did (Nat.le_refl _) p
    refine ccd_complete _ did [] (Nat.le_refl _) ⟨mids', p', ?_⟩
    intro m hm hmem
    rcases List.mem_insert_iff.mp hmem with rfl | hmem'
    · exact hnot hm
    · simp at hmem'

/-- Outcome of `TaskManager.add_dependency` (lines 235-247): each
constructor is one `return` site together with the message printed
there. The `bool` actually returned is `retBool`. -/
inductive AddDepResult where
  | errTaskNotFound (id : String)
  | errDepNotFound (id : String)
  | errSelfDependency
  | okAlreadyExists
  | errCycleDetected
  | okAdded
deriving DecidableEq, Repr

/-- The `bool` the source returns for each `add_dependency` outcome. -/
def AddDepResult.retBool : AddDepResult → Bool
  | .errTaskNotFound _ => false
  | .errDepNotFound _ => false
  | .errSelfDependency => false
  | .okAlreadyExists => true
  | .errCycleDetected => false
  | .okAdded => true

/-- `TaskManager.add_dependency` (task_manager.py lines 235-247). -/
def add_dependency (σ : Registry) (task_id dependency_id : String) :
    AddDepResult × Registry :=
  match get_task_by_id σ task_id, get_task_by_id σ dependency_id with
  | none, _ => (.errTaskNotFound task_id, σ)
  | some _, none => (.errDepNotFound dependency_id, σ)
  | some task, some _ =>
    if task_id = dependency_id then (.errSelfDependency, σ)
    else if dependency_id ∈ task.depends_on_ids then (.okAlreadyExists, σ)
    else if check_circular_dependency σ task_id dependency_id [] then
      (.errCycleDetected, σ)
    else
      (.okAdded, updateTask σ task_id (fun t =>
        { t with depends_on_ids := t.depends_on_ids.insert dependency_id }))

/-- `TaskManager.remove_dependency` (lines 249-258). -/
def remove_dependency (σ : Registry) (task_id dependency_id : String) :
    Bool × Registry :=
  match get_task_by_id σ task_id with
  | none => (false, σ)
  | some task =>
    if dependency_id ∉ task.depends_on_ids then (false, σ)
    else
      (true, updateTask σ task_id (fun t =>
        { t with depends_on_ids := t.depends_on_ids.erase dependency_id }))

/-- Outcome of `TaskManager.can_complete_task` (lines 178-199):
task missing, all dependencies satisfied, or blocked by the listed
still-`Pendente` dependencies. -/
inductive CanCompleteCheck where
  | notFound
  | ok
  | blocked (pending : List String)
deriving DecidableEq, Repr

/-- A dependency id that resolves to a live, still-`Pendente` task:
membership test used to build `incomplete_deps` in
`can_complete_task` (lines 186-189). -/
def depPending (σ : Registry) (d : String) : Bool :=
  match get_task_by_id σ d with
  | some u => u.status == Status.pendente
  | none => false

/-- A dependency id with a live task (its negation builds
`missing_deps`). -/
def depLive (σ : Registry) (d : String) : Bool :=
  (get_task_by_id σ d).isSome

/-- `TaskManager.can_complete_task` (lines 178-199). One pass over
`depends_on_ids` collects the ids with no live task (`missing_deps` =
the ids failing `depLive`) and the ids of live but still-`Pendente`
tasks (`incomplete_deps` = the ids satisfying `depPending`; the source
formats title+id strings, ids are kept here); missing ids are then
pruned from the task's `depends_on_ids` (and only then — the pruning
branch runs only when `missing_deps` is non-empty); the check fails
iff `incomplete_deps` is non-empty. The one-pass loop building the
two lists is rendered as the two `filter`s. -/
def can_complete_task (σ : Registry) (task_id : String) :
    CanCompleteCheck × Registry :=
  match get_task_by_id σ task_id with
  | none => (.notFound, σ)
  | some task =>
    if task.depends_on_ids = [] then (.ok, σ)
    else
      (if (task.depends_on_ids.filter (depPending σ)).isEmpty then .ok
       else .blocked (task.depends_on_ids.filter (depPending σ)),
       if (task.depends_on_ids.filter (fun d => !(depLive σ d))).isEmpty
       then σ
       else updateTask σ task_id (fun t =>
         { t with depends_on_ids :=
             (t.depends_on_ids.filter (depLive σ)) }))

/-- Outcome of `TaskManager.mark_task_complete` (lines 201-210). The
source returns the task on success and `None` otherwise; the printed
messages distinguish the `None` cases, which is captured by the
constructors. `retVal` is the value actually returned. -/
inductive CompleteResult where
  | errNotFound (id : String)
  | errBlocked (pending : List String)
  | okCompleted (t : Task)
  | noopAlreadyComplete
deriving DecidableEq, Repr

/-- The `Optional[Task]` the source returns for each outcome. -/
def CompleteResult.retVal : CompleteResult → Option Task
  | .okCompleted t => some t
  | _ => none

/-- `TaskManager.mark_task_complete` (lines 201-210). -/
def mark_task_complete (σ : Registry) (task_id : String) (now : Nat) :
    CompleteResult × Registry :=
  match can_complete_task σ task_id with
  | (.notFound, σ₁) => (.errNotFound task_id, σ₁)
  | (.blocked pending, σ₁) => (.errBlocked pending, σ₁)
  | (.ok, σ₁) =>
    match get_task_by_id σ₁ task_id with
    | some task =>
      if task.status = .pendente then
        (.okCompleted (task.mark_complete now),
          updateTask σ₁ task_id (fun t => t.mark_complete now))
      else (.noopAlreadyComplete, σ₁)
    | none => (.errNotFound task_id, σ₁)

/-- Outcome of `TaskManager.mark_task_pending` (lines 212-231). -/
inductive PendingResult where
  | errNotFound (id : String)
  | noopAlreadyPending
  | errWouldInvalidate (dependents : List String)
  | okPending (t : Task)
deriving DecidableEq, Repr

/-- The `Optional[Task]` the source returns for each outcome. -/
def PendingResult.retVal : PendingResult → Option Task
  | .okPending t => some t
  | _ => none

/-- `TaskManager.mark_task_pending` (lines 212-231). The blocking
scan collects every task in the list (the source formats title+id
strings; ids are kept here) whose `depends_on_ids` contains the id
and whose status is `Concluída`. -/
def mark_task_pending (σ : Registry) (task_id : String) :
    PendingResult × Registry :=
  match get_task_by_id σ task_id with
  | none => (.errNotFound task_id, σ)
  | some task =>
    if task.status = .pendente then (.noopAlreadyPending, σ)
    else
      let blocked := (σ.filter (fun u =>
        task_id ∈ u.depends_on_ids && u.status == .concluida)).map
        Task.task_id
      if blocked.isEmpty then
        (.okPending task.mark_pending,
          updateTask σ task_id Task.mark_pending)
      else (.errWouldInvalidate blocked, σ)

/-- Outcome of `TaskManager.delete_task` (lines 157-176). -/
inductive DeleteResult where
  | errNotFound (id : String)
  | errHasDependents (blocking : List String)
  | okDeleted
deriving DecidableEq, Repr

/-- `TaskManager.delete_task` (lines 157-176): refuse when absent or
when any task in the list still depends on the id; otherwise remove
the task object from the list (and hence from the derived id map). -/
def delete_task (σ : Registry) (task_id : String) : DeleteResult × Registry :=
  match get_task_by_id σ task_id with
  | none => (.errNotFound task_id, σ)
  | some _ =>
    let blocking := (σ.filter (fun u => task_id ∈ u.depends_on_ids)).map
      Task.task_id
    if blocking.isEmpty then
      (.okDeleted, σ.eraseP (fun t => t.task_id == task_id))
    else (.errHasDependents blocking, σ)

/-- Errors `TaskManager.add_task` (lines 47-84) can raise: an unknown
dependency id, a dependency that would create a cycle, or a field
validation error from `Task.__init__`. -/
inductive AddTaskError where
  | depNotFound (id : String)
  | cycleDetected (id : String)
  | validation (msg : String)
deriving DecidableEq, Repr

/-- The dependency-validation loop of `add_task` (lines 59-62): for
each requested dependency id in order, first require a live task,
then require that the edge would not create a cycle against the
provisional id. -/
def validate_deps (σ : Registry) (temp_task_id : String) :
    List String → Option AddTaskError
  | [] => none
  | d :: rest =>
    if (get_task_by_id σ d).isNone then some (.depNotFound d)
    else if check_circular_dependency σ temp_task_id d [] then
      some (.cycleDetected d)
    else validate_deps σ temp_task_id rest

/-- `TaskManager.add_task` (lines 47-84). The provisional id (a fresh
UUID in the source) is an explicit argument. Dependencies are
validated against the registry first; then the task is constructed
(normalizing projects/contexts, dropping empty ones) and only on
success appended to the list. A raised error leaves the list as it
was. -/
def add_task (σ : Registry) (temp_task_id title description : String)
    (due_date : Option Nat) (priority category : String)
    (eisenhower_quadrant : Option String)
    (depends_on_ids projects contexts : List String) (now : Nat) :
    Except AddTaskError Task × Registry :=
  match validate_deps σ temp_task_id depends_on_ids with
  | some e => (.error e, σ)
  | none =>
    let normalized_projects :=
      ((projects.filter (fun p => p ≠ "")).map normalize_tag).dedup
    let normalized_contexts :=
      ((contexts.filter (fun c => c ≠ "")).map normalize_tag).dedup
    match Task.init title description due_date priority category
        .pendente temp_task_id none none eisenhower_quadrant
        depends_on_ids normalized_projects normalized_contexts now with
    | .error m => (.error (.validation m), σ)
    | .ok t => (.ok t, σ ++ [t])

/-- The two tag families of `_add_tag_to_task` / `_remove_tag_from_task`. -/
inductive TagType where
  | projeto
  | contexto
deriving DecidableEq, Repr

/-- Outcome of `TaskManager._add_tag_to_task` (lines 262-276). -/
inductive AddTagResult where
  | errTaskNotFound (id : String)
  | errEmptyTag
  | okAlreadyPresent
  | okAdded
deriving DecidableEq, Repr

/-- The `bool` the source returns for each `_add_tag_to_task` outcome. -/
def AddTagResult.retBool : AddTagResult → Bool
  | .errTaskNotFound _ => false
  | .errEmptyTag => false
  | .okAlreadyPresent => true
  | .okAdded => true

/-- `tag_set.add(normalized_tag)` on the family selected by the tag
type (line 273). -/
def addTagUpdate (normalized : String) (tag_type : TagType)
    (t : Task) : Task :=
  match tag_type with
  | .projeto => { t with projects := t.projects.insert normalized }
  | .contexto => { t with contexts := t.contexts.insert normalized }

/-- `tag_set.remove(normalized_tag)` on the family selected by the tag
type (line 290). -/
def removeTagUpdate (normalized : String) (tag_type : TagType)
    (t : Task) : Task :=
  match tag_type with
  | .projeto => { t with projects := t.projects.erase normalized }
  | .contexto => { t with contexts := t.contexts.erase normalized }

/-- `TaskManager._add_tag_to_task` (lines 262-276). -/
def add_tag_to_task (σ : Registry) (task_id tag : String)
    (tag_type : TagType) : AddTagResult × Registry :=
  match get_task_by_id σ task_id with
  | none => (.errTaskNotFound task_id, σ)
  | some task =>
    let normalized := normalize_tag tag
    if normalized = "" then (.errEmptyTag, σ)
    else
      let tag_set := match tag_type with
        | .projeto => task.projects
        | .contexto => task.contexts
      if normalized ∈ tag_set then (.okAlreadyPresent, σ)
      else
        (.okAdded, updateTask σ task_id (addTagUpdate normalized tag_type))

/-- Outcome of `TaskManager._remove_tag_from_task` (lines 278-293). -/
inductive RemoveTagResult where
  | errTaskNotFound (id : String)
  | errNotPresent
  | okRemoved
deriving DecidableEq, Repr

/-- `TaskManager._remove_tag_from_task` (lines 278-293). -/
def remove_tag_from_task (σ : Registry) (task_id tag : String)
    (tag_type : TagType) : RemoveTagResult × Registry :=
  match get_task_by_id σ task_id with
  | none => (.errTaskNotFound task_id, σ)
  | some task =>
    let normalized := normalize_tag tag
    let tag_set := match tag_type with
      | .projeto => task.projects
      | .contexto => task.contexts
    if normalized ∉ tag_set then (.errNotPresent, σ)
    else
      (.okRemoved,
        updateTask σ task_id (removeTagUpdate normalized tag_type))

/-- A sequence of `add_dependency` calls applied in order, keeping
only the evolving registry. -/
def applyAddDeps (σ : Registry) (ops : List (String × String)) : Registry :=
  ops.foldl (fun s p => (add_dependency s p.1 p.2).2) σ

theorem get_updateTask (σ : Registry) (i : String) (f : Task → Task)
    (hf : ∀ t, (f t).task_id = t.task_id) (x : String) :
    get_task_by_id (updateTask σ i f) x =
      if x = i then (get_task_by_id σ x).map f else get_task_by_id σ x := by
  induction σ with
  | nil => simp [get_task_by_id, updateTask]
  | cons t σ ih =>
    have hid : (if (t.task_id == i) then f t else t).task_id = t.task_id := by
      by_cases h : t.task_id = i <;> simp [h, hf]
    by_cases htx : t.task_id = x
    · have h1 : get_task_by_id (updateTask (t :: σ) i f) x =
          some (if (t.task_id == i) then f t else t) := by
        simp only [updateTask, List.map_cons, get_task_by_id]
        exact List.find?_cons_of_pos _ (by rw [hid]; simp [htx])
      have h2 : get_task_by_id (t :: σ) x = some t := by
        simp only [get_task_by_id]
        exact List.find?_cons_of_pos _ (by simp [htx])
      rw [h1, h2]
      by_cases hxi : x = i
      · simp [htx, hxi]
      · have hti : ¬ t.task_id = i := fun h => hxi (by rw [← htx, h])
        simp [hti, hxi]
    · have h1 : get_task_by_id (updateTask (t :: σ) i f) x =
          get_task_by_id (updateTask σ i f) x := by
        simp only [updateTask, List.map_cons, get_task_by_id]
        exact List.find?_cons_of_neg _ (by rw [hid]; simp [htx])
      have h2 : get_task_by_id (t :: σ) x = get_task_by_id σ x := by
        simp only [get_task_by_id]
        exact List.find?_cons_of_neg _ (by simp [htx])
      rw [h1, h2]
      exact ih

/-- The registry after `add_dependency` successfully inserts the edge
`task_id → dependency_id`. -/
def insertEdge (σ : Registry) (task_id dependency_id : String) : Registry :=
  updateTask σ task_id (fun t =>
    { t with depends_on_ids := t.depends_on_ids.insert dependency_id })

theorem depStep_insertEdge {σ : Registry} {tid did : String} {t₀ : Task}
    (hlive : get_task_by_id σ tid = some t₀) (x y : String) :
    depStep (insertEdge σ tid did) x y ↔
      depStep σ x y ∨ (x = tid ∧ y = did) := by
  have hf : ∀ t : Task,
      (({ t with depends_on_ids := t.depends_on_ids.insert did } :
        Task)).task_id = t.task_id := fun _ => rfl
  unfold insertEdge
  by_cases hx : x = tid
  · subst hx
    rw [depStep, get_updateTask σ x _ hf x, if_pos rfl, hlive]
    constructor
    · rintro ⟨u, hu, hy⟩
      cases hu
      rcases List.mem_insert_iff.mp hy with rfl | hy'
      · exact Or.inr ⟨rfl, rfl⟩
      · exact Or.inl ⟨t₀, hlive, hy'⟩
    · rintro (⟨u, hu, hy⟩ | ⟨-, rfl⟩)
      · rw [hlive] at hu
        cases hu
        exact ⟨_, rfl, List.mem_insert_iff.mpr (Or.inr hy)⟩
      · exact ⟨_, rfl, List.mem_insert_iff.mpr (Or.inl rfl)⟩
  · rw [depStep, get_updateTask σ tid _ hf x, if_neg hx]
    constructor
    · rintro ⟨u, hu, hy⟩
      exact Or.inl ⟨u, hu, hy⟩
    · rintro (⟨u, hu, hy⟩ | ⟨rfl, -⟩)
      · exact ⟨u, hu, hy⟩
      · exact absurd rfl hx

/-- Any reachability in the graph extended with the single edge
`tid → did` either already existed, or decomposes through the new
edge. -/
theorem transGen_insertEdge {σ : Registry} {tid did : String} {t₀ : Task}
    (hlive : get_task_by_id σ tid = some t₀) {x y : String}
    (h : Relation.TransGen (depStep (insertEdge σ tid did)) x y) :
    Relation.TransGen (depStep σ) x y ∨
      (Relation.ReflTransGen (depStep σ) x tid ∧
        Relation.ReflTransGen (depStep σ) did y) := by
  induction h with
  | single hs =>
    rcases (depStep_insertEdge hlive _ _).mp hs with hs' | ⟨rfl, rfl⟩
    · exact Or.inl (Relation.TransGen.single hs')
    · exact Or.inr ⟨Relation.ReflTransGen.refl, Relation.ReflTransGen.refl⟩
  | tail _ hs ih =>
    rcases (depStep_insertEdge hlive _ _).mp hs with hs' | ⟨rfl, rfl⟩
    · rcases ih with ih' | ⟨h₁, h₂⟩
      · exact Or.inl (ih'.tail hs')
      · exact Or.inr ⟨h₁, h₂.tail hs'⟩
    · rcases ih with ih' | ⟨h₁, -⟩
      · exact Or.inr ⟨ih'.to_reflTransGen, Relation.ReflTransGen.refl⟩
      · exact Or.inr ⟨h₁, Relation.ReflTransGen.refl⟩

/-- Whatever its arguments and outcome, a single `add_dependency` call
keeps the dependency graph acyclic. -/
theorem add_dependency_preserves_acyclic (σ : Registry)
    (task_id dependency_id : String) (hacyc : Acyclic σ) :
    Acyclic (add_dependency σ task_id dependency_id).2 := by
  unfold add_dependency
  cases hgt : get_task_by_id σ task_id with
  | none => exact hacyc
  | some task =>
    cases hgd : get_task_by_id σ dependency_id with
    | none => exact hacyc
    | some dep_task =>
      by_cases heq : task_id = dependency_id
      · simpa [heq] using hacyc
      · simp only [heq, if_false]
        by_cases hmem : dependency_id ∈ task.depends_on_ids
        · simpa [hmem] using hacyc
        · simp only [hmem, if_false]
          by_cases hccd : check_circular_dependency σ task_id dependency_id []
            = true
          · simpa [hccd] using hacyc
          · have hccd' : check_circular_dependency σ task_id dependency_id []
              = false := by simpa using hccd
            simp only [hccd', Bool.false_eq_true, if_false]
            intro a hr
            have hnr : ¬ Reaches σ dependency_id task_id := by
              intro hreach
              rw [← ccd_iff_reaches σ task_id dependency_id] at hreach
              rw [hccd'] at hreach
              exact Bool.false_ne_true hreach
            rcases transGen_insertEdge hgt hr with hold | ⟨h₁, h₂⟩
            · exact hacyc a hold
            · have : Relation.ReflTransGen (depStep σ) dependency_id
                  task_id := h₂.trans h₁
              rcases Relation.reflTransGen_iff_eq_or_transGen.mp this with
                hEq | hTG
              · exact heq hEq
              · exact hnr hTG

theorem applyAddDeps_preserves_acyclic (σ : Registry)
    (ops : List (String × String)) (hacyc : Acyclic σ) :
    Acyclic (applyAddDeps σ ops) := by
  induction ops generalizing σ with
  | nil => exact hacyc
  | cons op ops ih =>
    exact ih _ (add_dependency_preserves_acyclic σ op.1 op.2 hacyc)

/-- An edge-free registry is acyclic (used to discharge acyclicity at
concrete witness states). -/
theorem acyclic_of_no_deps {σ : Registry}
    (h : ∀ t ∈ σ, t.depends_on_ids = []) : Acyclic σ := by
  intro a hr
  cases hr with
  | single hs =>
    obtain ⟨t, hget, hmem⟩ := hs
    rw [h t (List.mem_of_find?_eq_some hget)] at hmem
    exact absurd hmem (List.not_mem_nil _)
  | tail _ hs =>
    obtain ⟨t, hget, hmem⟩ := hs
    rw [h t (List.mem_of_find?_eq_some hget)] at hmem
    exact absurd hmem (List.not_mem_nil _)

/-- In an edge-free registry nothing reaches anything (used at
concrete witness states). -/
theorem not_reaches_of_no_deps {σ : Registry}
    (h : ∀ t ∈ σ, t.depends_on_ids = []) (a b : String) :
    ¬ Reaches σ a b := by
  intro hr
  cases hr with
  | single hs =>
    obtain ⟨t, hget, hmem⟩ := hs
    rw [h t (List.mem_of_find?_eq_some hget)] at hmem
    exact absurd hmem (List.not_mem_nil _)
  | tail _ hs =>
    obtain ⟨t, hget, hmem⟩ := hs
    rw [h t (List.mem_of_find?_eq_some hget)] at hmem
    exact absurd hmem (List.not_mem_nil _)

/-- The target of any reachability is mentioned in some task's
`depends_on_ids`. -/
theorem reaches_target_mem_deps {σ : Registry} {a b : String}
    (h : Reaches σ a b) : b ∈ σ.flatMap Task.depends_on_ids := by
  cases h with
  | single hs =>
    obtain ⟨t, hget, hmem⟩ := hs
    exact List.mem_flatMap.mpr ⟨t, List.mem_of_find?_eq_some hget, hmem⟩
  | tail _ hs =>
    obtain ⟨t, hget, hmem⟩ := hs
    exact List.mem_flatMap.mpr ⟨t, List.mem_of_find?_eq_some hget, hmem⟩

/-- A concrete task record used to build witness states. -/
def sampleTask (i : String) (st : Status) (cd : Option Nat)
    (deps : List String) : Task :=
  { task_id := i, title := i, description := "", priority := "Média",
    category := "Geral", status := st, creation_date := 0,
    completion_date := cd, due_date := none, eisenhower_quadrant := none,
    depends_on_ids := deps, projects := [], contexts := [] }

/-- C1: every sequence of `addDependency` calls keeps the `dependsOn`
graph acyclic, and — once the lookup/self/duplicate guards have
passed — `add_dependency` fails with `CycleDetected` exactly when the
candidate task id is reachable from the new dependency id along
existing `dependsOn` edges (cycles of any length), and otherwise
inserts the edge. -/
theorem c1_addDependency_keeps_acyclic (σ : Registry)
    (ops : List (String × String)) (tid did : String) (t u : Task)
    (hacyc : Acyclic σ)
    (ht : get_task_by_id σ tid = some t)
    (hu : get_task_by_id σ did = some u)
    (hne : tid ≠ did)
    (hnew : did ∉ t.depends_on_ids) :
    Acyclic (applyAddDeps σ ops) ∧
    (Reaches σ did tid →
      add_dependency σ tid did = (.errCycleDetected, σ)) ∧
    (¬ Reaches σ did tid →
      add_dependency σ tid did = (.okAdded, insertEdge σ tid did)) := by
  refine ⟨applyAddDeps_preserves_acyclic σ ops hacyc, ?_, ?_⟩
  · intro hreach
    have hccd : check_circular_dependency σ tid did [] = true :=
      (ccd_iff_reaches σ tid did).mpr hreach
    unfold add_dependency
    rw [ht, hu]
    simp [hne, hnew, hccd]
  · intro hreach
    have hccd : check_circular_dependency σ tid did [] = false := by
      rcases Bool.eq_false_or_eq_true
        (check_circular_dependency σ tid did []) with h | h
      · exact absurd ((ccd_iff_reaches σ tid did).mp h) hreach
      · exact h
    unfold add_dependency
    rw [ht, hu]
    simp [hne, hnew, hccd, insertEdge]

theorem c1_addDependency_keeps_acyclic_witness :
    Acyclic (applyAddDeps
      [sampleTask "a" .pendente none [], sampleTask "b" .pendente none []]
      [("a", "b")]) ∧
    add_dependency
      [sampleTask "a" .pendente none [], sampleTask "b" .pendente none []]
      "a" "b" =
      (.okAdded, insertEdge
        [sampleTask "a" .pendente none [], sampleTask "b" .pendente none []]
        "a" "b") := by
  have hnd : ∀ t ∈ [sampleTask "a" .pendente none [],
      sampleTask "b" .pendente none []], t.depends_on_ids = [] := by decide
  have h := c1_addDependency_keeps_acyclic
    [sampleTask "a" .pendente none [], sampleTask "b" .pendente none []]
    [("a", "b")] "a" "b"
    (sampleTask "a" .pendente none []) (sampleTask "b" .pendente none [])
    (acyclic_of_no_deps hnd) rfl rfl (by decide) (by decide)
  exact ⟨h.1, h.2.2 (not_reaches_of_no_deps hnd "b" "a")⟩

/-- C6 counterexample: with both ids equal but absent from the
registry, `add_dependency` reports the task as not found rather than a
self-dependency, because the two lookups are checked before the
equality guard. -/
theorem c6_counterexample :
    (add_dependency [] "x" "x").1 = AddDepResult.errTaskNotFound "x" ∧
    (add_dependency [] "x" "x").1 ≠ AddDepResult.errSelfDependency := by
  constructor
  · rfl
  · decide

/-- C6 (amended): `add_dependency`'s outcomes in the source's check
order — task lookup, dependency lookup, equality, existing edge
(no-op success; calling twice leaves the edge set unchanged and
returns success both times), cycle check, insertion of exactly that
one edge. `SelfDependency` is reported only when the ids are equal
and resolve to a live task; an absent id wins and yields `NotFound`. -/
theorem c6_addDependency_characterization (σ : Registry) (a b : String) :
    (get_task_by_id σ a = none →
      add_dependency σ a b = (.errTaskNotFound a, σ)) ∧
    (∀ t, get_task_by_id σ a = some t → get_task_by_id σ b = none →
      add_dependency σ a b = (.errDepNotFound b, σ)) ∧
    (∀ t, get_task_by_id σ a = some t → get_task_by_id σ b ≠ none →
      a = b → add_dependency σ a b = (.errSelfDependency, σ)) ∧
    (∀ t, get_task_by_id σ a = some t → get_task_by_id σ b ≠ none →
      a ≠ b → b ∈ t.depends_on_ids →
      add_dependency σ a b = (.okAlreadyExists, σ)) ∧
    (∀ t, get_task_by_id σ a = some t → get_task_by_id σ b ≠ none →
      a ≠ b → b ∉ t.depends_on_ids → Reaches σ b a →
      add_dependency σ a b = (.errCycleDetected, σ)) ∧
    (∀ t, get_task_by_id σ a = some t → get_task_by_id σ b ≠ none →
      a ≠ b → b ∉ t.depends_on_ids → ¬ Reaches σ b a →
      add_dependency σ a b = (.okAdded, insertEdge σ a b) ∧
      get_task_by_id (insertEdge σ a b) a =
        some { t with depends_on_ids := b :: t.depends_on_ids } ∧
      (∀ x, x ≠ a →
        get_task_by_id (insertEdge σ a b) x = get_task_by_id σ x) ∧
      add_dependency (insertEdge σ a b) a b =
        (.okAlreadyExists, insertEdge σ a b)) := by
  have hf : ∀ t : Task,
      (({ t with depends_on_ids := t.depends_on_ids.insert b } :
        Task)).task_id = t.task_id := fun _ => rfl
  refine ⟨?_, ?_, ?_, ?_, ?_, ?_⟩
  · intro ha
    unfold add_dependency
    rw [ha]
  · intro t ha hb
    unfold add_dependency
    rw [ha, hb]
  · intro t ha hb hab
    unfold add_dependency
    rcases Option.ne_none_iff_exists'.mp hb with ⟨u, hu⟩
    rw [ha, hu]
    simp [hab]
  · intro t ha hb hab hmem
    unfold add_dependency
    rcases Option.ne_none_iff_exists'.mp hb with ⟨u, hu⟩
    rw [ha, hu]
    simp [hab, hmem]
  · intro t ha hb hab hmem hreach
    have hccd : check_circular_dependency σ a b [] = true :=
      (ccd_iff_reaches σ a b).mpr hreach
    unfold add_dependency
    rcases Option.ne_none_iff_exists'.mp hb with ⟨u, hu⟩
    rw [ha, hu]
    simp [hab, hmem, hccd]
  · intro t ha hb hab hmem hreach
    have hccd : check_circular_dependency σ a b [] = false := by
      rcases Bool.eq_false_or_eq_true (check_circular_dependency σ a b [])
        with h | h
      · exact absurd ((ccd_iff_reaches σ a b).mp h) hreach
      · exact h
    rcases Option.ne_none_iff_exists'.mp hb with ⟨u, hu⟩
    have hstep : add_dependency σ a b = (.okAdded, insertEdge σ a b) := by
      unfold add_dependency
      rw [ha, hu]
      simp [hab, hmem, hccd, insertEdge]
    have hget' : get_task_by_id (insertEdge σ a b) a =
        some { t with depends_on_ids := b :: t.depends_on_ids } := by
      unfold insertEdge
      rw [get_updateTask σ a _ hf a, if_pos rfl, ha]
      simp [List.insert_of_not_mem hmem]
    have hother : ∀ x, x ≠ a →
        get_task_by_id (insertEdge σ a b) x = get_task_by_id σ x := by
      intro x hx
      unfold insertEdge
      rw [get_updateTask σ a _ hf x, if_neg hx]
    refine ⟨hstep, hget', hother, ?_⟩
    have hgb : get_task_by_id (insertEdge σ a b) b = some u := by
      rw [hother b (fun h => hab h.symm), hu]
    unfold add_dependency
    rw [hget', hgb]
    simp [hab]

theorem c6_addDependency_characterization_witness :
    add_dependency
      [sampleTask "a" .pendente none [], sampleTask "b" .pendente none []]
      "a" "b" =
      (.okAdded, insertEdge
        [sampleTask "a" .pendente none [], sampleTask "b" .pendente none []]
        "a" "b") ∧
    add_dependency (insertEdge
      [sampleTask "a" .pendente none [], sampleTask "b" .pendente none []]
      "a" "b") "a" "b" =
      (.okAlreadyExists, insertEdge
        [sampleTask "a" .pendente none [], sampleTask "b" .pendente none []]
        "a" "b") := by
  have hnd : ∀ t ∈ [sampleTask "a" .pendente none [],
      sampleTask "b" .pendente none []], t.depends_on_ids = [] := by decide
  have h := (c6_addDependency_characterization
    [sampleTask "a" .pendente none [], sampleTask "b" .pendente none []]
    "a" "b").2.2.2.2.2 (sampleTask "a" .pendente none [])
    rfl (by decide) (by decide) (by decide)
    (not_reaches_of_no_deps hnd "b" "a")
  exact ⟨h.1, h.2.2.2⟩

/-- Closed form of `can_complete_task` at a live task: the early
return for an empty dependency set coincides with the general shape
(both filters of `[]` are empty). -/
theorem can_complete_live (σ : Registry) (id : String) (t : Task)
    (ht : get_task_by_id σ id = some t) :
    can_complete_task σ id =
      (if (t.depends_on_ids.filter (depPending σ)).isEmpty
       then .ok
       else .blocked (t.depends_on_ids.filter (depPending σ)),
       if (t.depends_on_ids.filter (fun d => !(depLive σ d))).isEmpty
       then σ
       else updateTask σ id (fun u =>
         { u with depends_on_ids :=
             (u.depends_on_ids.filter (depLive σ)) })) := by
  unfold can_complete_task
  rw [ht]
  dsimp only
  by_cases hdeps : t.depends_on_ids = []
  · rw [if_pos hdeps, hdeps]
    simp
  · rw [if_neg hdeps]

/-- The pruned registry (second component of `can_complete_task`)
still holds the inspected task, with the same status and its
dependency ids restricted to those with a live task. -/
theorem pruned_get (σ : Registry) (id : String) (t : Task)
    (ht : get_task_by_id σ id = some t) :
    get_task_by_id
      (if (t.depends_on_ids.filter (fun d => !(depLive σ d))).isEmpty
       then σ
       else updateTask σ id (fun u =>
         { u with depends_on_ids :=
             (u.depends_on_ids.filter (depLive σ)) })) id =
      some { t with depends_on_ids :=
        t.depends_on_ids.filter (depLive σ) } := by
  have hf : ∀ u : Task,
      (({ u with depends_on_ids :=
          (u.depends_on_ids.filter (depLive σ)) } : Task)).task_id =
        u.task_id := fun _ => rfl
  by_cases hM : (t.depends_on_ids.filter
      (fun d => !(depLive σ d))).isEmpty = true
  · rw [if_pos hM, ht]
    have hall : ∀ d ∈ t.depends_on_ids, (depLive σ d) = true := by
      intro d hd
      have := (List.filter_eq_nil_iff.mp (List.isEmpty_iff.mp hM)) d hd
      simpa using this
    rw [List.filter_eq_self.mpr hall]
  · rw [if_neg hM]
    rw [get_updateTask σ id _ hf id, if_pos rfl, ht]
    rfl

/-- C2: with the task live and `Pendente`, `mark_task_complete`
succeeds iff every dependency id with a live task has that task
`Concluída` (dangling ids do not block); on failure it reports the
full list of live, still-`Pendente` dependencies — not just the first
— and leaves the task `Pendente`, with dangling dependency ids pruned
from its `dependsOn`. -/
theorem c2_complete_iff_deps_complete (σ : Registry) (id : String)
    (t : Task) (now : Nat) (ht : get_task_by_id σ id = some t)
    (hp : t.status = .pendente) :
    ((∃ u, (mark_task_complete σ id now).1 = .okCompleted u) ↔
      ∀ d ∈ t.depends_on_ids, ∀ u, get_task_by_id σ d = some u →
        u.status = .concluida) ∧
    (∀ pending, (mark_task_complete σ id now).1 = .errBlocked pending →
      (∀ d, d ∈ pending ↔ d ∈ t.depends_on_ids ∧
        ∃ u, get_task_by_id σ d = some u ∧ u.status = .pendente) ∧
      ∃ t', get_task_by_id (mark_task_complete σ id now).2 id = some t' ∧
        t'.status = .pendente ∧
        t'.depends_on_ids = t.depends_on_ids.filter (depLive σ)) := by
  have hcc := can_complete_live σ id t ht
  have hpget := pruned_get σ id t ht
  by_cases hI : (t.depends_on_ids.filter (depPending σ)).isEmpty = true
  · -- no live dependency is still pending: the transition succeeds
    have hr : mark_task_complete σ id now =
        (.okCompleted (Task.mark_complete
          { t with depends_on_ids := t.depends_on_ids.filter (depLive σ) }
          now),
         updateTask
           (if (t.depends_on_ids.filter
               (fun d => !(depLive σ d))).isEmpty then σ
            else updateTask σ id (fun u =>
              { u with depends_on_ids :=
                  (u.depends_on_ids.filter (depLive σ)) })) id
           (fun u => u.mark_complete now)) := by
      unfold mark_task_complete
      rw [hcc, if_pos hI]
      dsimp only
      rw [hpget]
      dsimp only
      rw [if_pos hp]
    constructor
    · constructor
      · intro _ d hd u hu
        have := (List.filter_eq_nil_iff.mp (List.isEmpty_iff.mp hI)) d hd
        rw [depPending, hu] at this
        simp only [beq_iff_eq] at this
        cases hus : u.status with
        | pendente => exact absurd hus this
        | concluida => rfl
      · intro _
        exact ⟨_, by rw [hr]⟩
    · intro pending hpend
      rw [hr] at hpend
      exact absurd hpend (by simp)
  · -- some live dependency is still pending: blocked
    have hr : mark_task_complete σ id now =
        (.errBlocked (t.depends_on_ids.filter (depPending σ)),
         if (t.depends_on_ids.filter
             (fun d => !(depLive σ d))).isEmpty then σ
         else updateTask σ id (fun u =>
           { u with depends_on_ids :=
               (u.depends_on_ids.filter (depLive σ)) })) := by
      unfold mark_task_complete
      rw [hcc, if_neg hI]
    obtain ⟨d₀, hd₀⟩ := List.exists_mem_of_ne_nil _
      (fun h : (t.depends_on_ids.filter (depPending σ)) = [] =>
        hI (by rw [h]; rfl))
    have hd₀' := List.mem_filter.mp hd₀
    constructor
    · constructor
      · intro ⟨u, hu⟩
        rw [hr] at hu
        exact absurd hu (by simp)
      · intro hall
        exfalso
        have hpd := hd₀'.2
        rw [depPending] at hpd
        rcases hget : get_task_by_id σ d₀ with _ | u
        · rw [hget] at hpd
          simp at hpd
        · rw [hget] at hpd
          simp only [beq_iff_eq] at hpd
          have := hall d₀ hd₀'.1 u hget
          rw [this] at hpd
          exact absurd hpd (by simp)
    · intro pending hpend
      rw [hr] at hpend
      simp only [CompleteResult.errBlocked.injEq] at hpend
      subst hpend
      refine ⟨?_, ?_⟩
      · intro d
        constructor
        · intro hd
          have hd' := List.mem_filter.mp hd
          refine ⟨hd'.1, ?_⟩
          have hpd := hd'.2
          rw [depPending] at hpd
          rcases hget : get_task_by_id σ d with _ | u
          · rw [hget] at hpd
            simp at hpd
          · rw [hget] at hpd
            simp only [beq_iff_eq] at hpd
            exact ⟨u, rfl, hpd⟩
        · rintro ⟨hd, u, hu, hus⟩
          refine List.mem_filter.mpr ⟨hd, ?_⟩
          rw [depPending, hu]
          simp [hus]
      · refine ⟨{ t with depends_on_ids :=
            t.depends_on_ids.filter (depLive σ) }, ?_, hp, rfl⟩
        rw [hr]
        exact hpget

theorem c2_complete_iff_deps_complete_witness :
    ((mark_task_complete
      [sampleTask "a" .pendente none ["b", "c"],
       sampleTask "b" .concluida (some 1) [],
       sampleTask "c" .pendente none []] "a" 7).1 =
        .errBlocked ["c"]) ∧
    ("c" ∈ ["c"] ↔ "c" ∈ ["b", "c"] ∧
      ∃ u, get_task_by_id
        [sampleTask "a" .pendente none ["b", "c"],
         sampleTask "b" .concluida (some 1) [],
         sampleTask "c" .pendente none []] "c" = some u ∧
        u.status = .pendente) := by
  have h := c2_complete_iff_deps_complete
    [sampleTask "a" .pendente none ["b", "c"],
     sampleTask "b" .concluida (some 1) [],
     sampleTask "c" .pendente none []] "a"
    (sampleTask "a" .pendente none ["b", "c"]) 7 rfl (by decide)
  have hblocked : (mark_task_complete
      [sampleTask "a" .pendente none ["b", "c"],
       sampleTask "b" .concluida (some 1) [],
       sampleTask "c" .pendente none []] "a" 7).1 =
        .errBlocked ["c"] := by decide
  exact ⟨hblocked, (h.2 ["c"] hblocked).1 "c"⟩

/-- C7 counterexample: the value `mark_task_complete` returns for a
transition already in the target state is `None` — exactly the value
returned for a failed transition (here: unknown id) — so the caller
cannot distinguish the no-op from a failure by the returned value;
only the printed message differs. -/
theorem c7_counterexample :
    (mark_task_complete [sampleTask "a" .concluida (some 1) []] "a" 7).1 =
      .noopAlreadyComplete ∧
    ((mark_task_complete [sampleTask "a" .concluida (some 1) []] "a" 7).1
      ).retVal = none ∧
    (mark_task_complete ([] : Registry) "a" 7).1 = .errNotFound "a" ∧
    ((mark_task_complete ([] : Registry) "a" 7).1).retVal = none ∧
    ((mark_task_complete [sampleTask "a" .concluida (some 1) []] "a" 7).1
      ).retVal =
      ((mark_task_complete ([] : Registry) "a" 7).1).retVal := by
  refine ⟨rfl, rfl, rfl, rfl, rfl⟩

/-- C7 (amended): a completion transition requested when the task is
already in the target state is a no-op — the registry is unchanged and
a distinct informational message (not an error message) is printed,
captured by the dedicated no-op result constructors — but the value
returned to the caller is `None`, the same value as for a failed
transition, so the outcome is distinguishable only through the
message, not through the returned value. (For an already-`Concluída`
task the no-op is reached provided its dependencies are live and
complete, since the dependency check runs first.) -/
theorem c7_noop_transitions (σ : Registry) (id : String) (t : Task)
    (now : Nat) (ht : get_task_by_id σ id = some t) :
    (t.status = .concluida →
      (∀ d ∈ t.depends_on_ids, ∃ u, get_task_by_id σ d = some u ∧
        u.status = .concluida) →
      mark_task_complete σ id now = (.noopAlreadyComplete, σ) ∧
      (CompleteResult.noopAlreadyComplete).retVal = none) ∧
    (t.status = .pendente →
      mark_task_pending σ id = (.noopAlreadyPending, σ) ∧
      (PendingResult.noopAlreadyPending).retVal = none) := by
  constructor
  · intro hc hall
    have hI : (t.depends_on_ids.filter (depPending σ)).isEmpty = true := by
      rw [List.isEmpty_iff]
      rw [List.filter_eq_nil_iff]
      intro d hd
      obtain ⟨u, hu, hus⟩ := hall d hd
      rw [depPending, hu]
      simp [hus]
    have hM : (t.depends_on_ids.filter
        (fun d => !(depLive σ d))).isEmpty = true := by
      rw [List.isEmpty_iff]
      rw [List.filter_eq_nil_iff]
      intro d hd
      obtain ⟨u, hu, -⟩ := hall d hd
      rw [depLive, hu]
      simp
    refine ⟨?_, rfl⟩
    unfold mark_task_complete
    rw [can_complete_live σ id t ht, if_pos hI, if_pos hM]
    dsimp only
    rw [ht]
    dsimp only
    rw [if_neg (by rw [hc]; exact fun h => Status.noConfusion h)]
  · intro hp
    refine ⟨?_, rfl⟩
    unfold mark_task_pending
    rw [ht]
    dsimp only
    rw [if_pos hp]

theorem c7_noop_transitions_witness :
    mark_task_complete [sampleTask "a" .concluida (some 1) []] "a" 7 =
      (.noopAlreadyComplete, [sampleTask "a" .concluida (some 1) []]) ∧
    mark_task_pending [sampleTask "b" .pendente none []] "b" =
      (.noopAlreadyPending, [sampleTask "b" .pendente none []]) := by
  have h1 := (c7_noop_transitions [sampleTask "a" .concluida (some 1) []]
    "a" (sampleTask "a" .concluida (some 1) []) 7 rfl).1 (by decide)
    (by decide)
  have h2 := (c7_noop_transitions [sampleTask "b" .pendente none []]
    "b" (sampleTask "b" .pendente none []) 7 rfl).2 (by decide)
  exact ⟨h1.1, h2.1⟩

/-- C3: for a live `Concluída` task, `mark_task_pending` fails with
`WouldInvalidateDependents` iff some other task in the registry is
`Concluída` and lists the id among its dependencies (direct dependents
only); the failure reports every such task and changes nothing; on
success the status becomes `Pendente` and the completion instant is
cleared. -/
theorem c3_uncomplete_guard (σ : Registry) (id : String) (t : Task)
    (ht : get_task_by_id σ id = some t) (hc : t.status = .concluida)
    (hself : id ∉ t.depends_on_ids) :
    ((∃ l, (mark_task_pending σ id).1 = .errWouldInvalidate l) ↔
      ∃ u ∈ σ, u ≠ t ∧ u.status = .concluida ∧ id ∈ u.depends_on_ids) ∧
    (∀ l, (mark_task_pending σ id).1 = .errWouldInvalidate l →
      (mark_task_pending σ id).2 = σ ∧
      (∀ x, x ∈ l ↔ ∃ u ∈ σ, u.task_id = x ∧ u.status = .concluida ∧
        id ∈ u.depends_on_ids)) ∧
    ((∀ u ∈ σ, ¬(u.status = .concluida ∧ id ∈ u.depends_on_ids)) →
      mark_task_pending σ id =
        (.okPending t.mark_pending, updateTask σ id Task.mark_pending) ∧
      (t.mark_pending).status = .pendente ∧
      (t.mark_pending).completion_date = none ∧
      get_task_by_id (updateTask σ id Task.mark_pending) id =
        some t.mark_pending) := by
  have hf : ∀ u : Task, (Task.mark_pending u).task_id = u.task_id := by
    intro u
    unfold Task.mark_pending
    split <;> rfl
  have hbody : mark_task_pending σ id =
      (if ((σ.filter (fun u =>
          id ∈ u.depends_on_ids && u.status == Status.concluida)).map
          Task.task_id).isEmpty
       then (.okPending t.mark_pending, updateTask σ id Task.mark_pending)
       else (.errWouldInvalidate ((σ.filter (fun u =>
          id ∈ u.depends_on_ids && u.status == Status.concluida)).map
          Task.task_id), σ)) := by
    unfold mark_task_pending
    rw [ht]
    dsimp only
    rw [if_neg (by rw [hc]; exact fun h => Status.noConfusion h)]
  by_cases hB : ((σ.filter (fun u =>
      id ∈ u.depends_on_ids && u.status == Status.concluida)).map
      Task.task_id).isEmpty = true
  · have hr : mark_task_pending σ id =
        (.okPending t.mark_pending, updateTask σ id Task.mark_pending) := by
      rw [hbody, if_pos hB]
    have hfilter : σ.filter (fun u =>
        id ∈ u.depends_on_ids && u.status == Status.concluida) = [] := by
      have := List.isEmpty_iff.mp hB
      exact List.map_eq_nil_iff.mp this
    refine ⟨?_, ?_, ?_⟩
    · constructor
      · rintro ⟨l, hl⟩
        rw [hr] at hl
        exact absurd hl (by simp)
      · rintro ⟨u, hu, -, hus, hdep⟩
        exfalso
        have := List.filter_eq_nil_iff.mp hfilter u hu
        rw [hus] at this
        simp [hdep] at this
    · intro l hl
      rw [hr] at hl
      exact absurd hl (by simp)
    · intro _
      refine ⟨hr, ?_, ?_, ?_⟩
      · unfold Task.mark_pending
        rw [if_pos hc]
      · unfold Task.mark_pending
        rw [if_pos hc]
      · rw [get_updateTask σ id _ hf id, if_pos rfl, ht]
        rfl
  · have hr : mark_task_pending σ id =
        (.errWouldInvalidate ((σ.filter (fun u =>
          id ∈ u.depends_on_ids && u.status == Status.concluida)).map
          Task.task_id), σ) := by
      rw [hbody, if_neg hB]
    have hne : σ.filter (fun u =>
        id ∈ u.depends_on_ids && u.status == Status.concluida) ≠ [] := by
      intro h
      exact hB (by rw [h]; rfl)
    refine ⟨?_, ?_, ?_⟩
    · constructor
      · intro _
        obtain ⟨u, hu⟩ := List.exists_mem_of_ne_nil _ hne
        have hu' := List.mem_filter.mp hu
        have hpred := hu'.2
        simp only [Bool.and_eq_true, decide_eq_true_eq, beq_iff_eq]
          at hpred
        refine ⟨u, hu'.1, ?_, hpred.2, hpred.1⟩
        intro hEq
        rw [hEq] at hpred
        exact hself hpred.1
      · intro _
        exact ⟨_, by rw [hr]⟩
    · intro l hl
      rw [hr] at hl
      simp only [PendingResult.errWouldInvalidate.injEq] at hl
      subst hl
      refine ⟨by rw [hr], ?_⟩
      intro x
      constructor
      · intro hx
        obtain ⟨u, hu, hux⟩ := List.mem_map.mp hx
        have hu' := List.mem_filter.mp hu
        have hpred := hu'.2
        simp only [Bool.and_eq_true, decide_eq_true_eq, beq_iff_eq]
          at hpred
        exact ⟨u, hu'.1, hux, hpred.2, hpred.1⟩
      · rintro ⟨u, hu, hux, hus, hdep⟩
        refine List.mem_map.mpr ⟨u, ?_, hux⟩
        refine List.mem_filter.mpr ⟨hu, ?_⟩
        simp [hus, hdep]
    · intro hall
      exfalso
      obtain ⟨u, hu⟩ := List.exists_mem_of_ne_nil _ hne
      have hu' := List.mem_filter.mp hu
      have hpred := hu'.2
      simp only [Bool.and_eq_true, decide_eq_true_eq, beq_iff_eq] at hpred
      exact hall u hu'.1 ⟨hpred.2, hpred.1⟩

theorem c3_uncomplete_guard_witness :
    ((mark_task_pending
      [sampleTask "a" .concluida (some 1) [],
       sampleTask "b" .concluida (some 2) ["a"]] "a").2 =
      [sampleTask "a" .concluida (some 1) [],
       sampleTask "b" .concluida (some 2) ["a"]]) ∧
    ("b" ∈ ["b"] ↔ ∃ u ∈ [sampleTask "a" .concluida (some 1) [],
       sampleTask "b" .concluida (some 2) ["a"]], u.task_id = "b" ∧
       u.status = .concluida ∧ "a" ∈ u.depends_on_ids) ∧
    mark_task_pending [sampleTask "c" .concluida (some 1) []] "c" =
      (.okPending (sampleTask "c" .concluida (some 1) []).mark_pending,
       updateTask [sampleTask "c" .concluida (some 1) []] "c"
         Task.mark_pending) := by
  have h1 := c3_uncomplete_guard
    [sampleTask "a" .concluida (some 1) [],
     sampleTask "b" .concluida (some 2) ["a"]] "a"
    (sampleTask "a" .concluida (some 1) []) rfl (by decide) (by decide)
  have hl := (h1.2.1 ["b"] (by decide))
  have h2 := c3_uncomplete_guard [sampleTask "c" .concluida (some 1) []]
    "c" (sampleTask "c" .concluida (some 1) []) rfl (by decide) (by decide)
  exact ⟨hl.1, hl.2 "b", (h2.2.2 (by decide)).1⟩

/-- With pairwise-distinct task ids, erasing the task with a given id
removes that id from the lookup index entirely. -/
theorem get_eraseP_none {σ : Registry} {id : String}
    (hnd : (σ.map Task.task_id).Nodup) :
    get_task_by_id (σ.eraseP (fun u => u.task_id == id)) id = none := by
  induction σ with
  | nil => rfl
  | cons t σ ih =>
    have hnd0 : (t.task_id :: List.map Task.task_id σ).Nodup := by
      simpa only [List.map_cons] using hnd
    have hnd' := List.nodup_cons.mp hnd0
    by_cases hti : t.task_id = id
    · rw [List.eraseP_cons_of_pos (by simp [hti])]
      rw [get_task_by_id, List.find?_eq_none]
      intro u hu
      simp only [beq_iff_eq]
      intro hux
      exact hnd'.1 (by
        rw [hti, ← hux]
        exact List.mem_map_of_mem _ hu)
    · rw [List.eraseP_cons_of_neg (by simp [hti])]
      rw [get_task_by_id, List.find?_cons_of_neg _ (by simp [hti])]
      exact ih hnd'.2

/-- Erasing the task with one id keeps every task with a different id. -/
theorem mem_eraseP_of_ne {σ : Registry} {id : String} {u : Task}
    (hu : u ∈ σ) (hne : u.task_id ≠ id) :
    u ∈ σ.eraseP (fun v => v.task_id == id) := by
  induction σ with
  | nil => cases hu
  | cons t σ ih =>
    by_cases hti : t.task_id = id
    · rw [List.eraseP_cons_of_pos (by simp [hti])]
      rcases List.mem_cons.mp hu with rfl | hu'
      · exact absurd hti hne
      · exact hu'
    · rw [List.eraseP_cons_of_neg (by simp [hti])]
      rcases List.mem_cons.mp hu with rfl | hu'
      · exact List.mem_cons_self _ _
      · exact List.mem_cons_of_mem _ (ih hu')

/-- C5: `delete_task` fails with `NotFound` when no live task has the
id; fails with `HasDependents`, reporting every task whose
`depends_on_ids` contains the id, leaving the registry unchanged;
otherwise removes the task from the list (and, with distinct ids, from
the lookup index) while keeping every other task. -/
theorem c5_delete_guard (σ : Registry) (id : String) :
    (get_task_by_id σ id = none →
      delete_task σ id = (.errNotFound id, σ)) ∧
    (∀ t, get_task_by_id σ id = some t →
      (∃ u ∈ σ, id ∈ u.depends_on_ids) →
      delete_task σ id =
        (.errHasDependents ((σ.filter
          (fun u => id ∈ u.depends_on_ids)).map Task.task_id), σ) ∧
      (∀ x, x ∈ (σ.filter
          (fun u => id ∈ u.depends_on_ids)).map Task.task_id ↔
        ∃ u ∈ σ, u.task_id = x ∧ id ∈ u.depends_on_ids)) ∧
    (∀ t, get_task_by_id σ id = some t →
      (∀ u ∈ σ, id ∉ u.depends_on_ids) →
      delete_task σ id =
        (.okDeleted, σ.eraseP (fun u => u.task_id == id)) ∧
      ((σ.map Task.task_id).Nodup →
        get_task_by_id (delete_task σ id).2 id = none) ∧
      (∀ u ∈ σ, u.task_id ≠ id → u ∈ (delete_task σ id).2)) := by
  refine ⟨?_, ?_, ?_⟩
  · intro hnone
    unfold delete_task
    rw [hnone]
  · intro t ht hex
    obtain ⟨u, hu, hdep⟩ := hex
    have hBne : ¬ ((σ.filter
        (fun u => id ∈ u.depends_on_ids)).map Task.task_id).isEmpty
        = true := by
      intro h
      have hnil := List.map_eq_nil_iff.mp (List.isEmpty_iff.mp h)
      have := List.filter_eq_nil_iff.mp hnil u hu
      simp [hdep] at this
    have hr : delete_task σ id =
        (.errHasDependents ((σ.filter
          (fun u => id ∈ u.depends_on_ids)).map Task.task_id), σ) := by
      unfold delete_task
      rw [ht]
      dsimp only
      rw [if_neg hBne]
    refine ⟨hr, ?_⟩
    intro x
    constructor
    · intro hx
      obtain ⟨v, hv, hvx⟩ := List.mem_map.mp hx
      have hv' := List.mem_filter.mp hv
      exact ⟨v, hv'.1, hvx, by simpa using hv'.2⟩
    · rintro ⟨v, hv, hvx, hvdep⟩
      exact List.mem_map.mpr ⟨v, List.mem_filter.mpr ⟨hv, by simpa using
        hvdep⟩, hvx⟩
  · intro t ht hall
    have hB : ((σ.filter
        (fun u => id ∈ u.depends_on_ids)).map Task.task_id).isEmpty
        = true := by
      rw [List.isEmpty_iff]
      rw [List.map_eq_nil_iff, List.filter_eq_nil_iff]
      intro u hu
      simpa using hall u hu
    have hr : delete_task σ id =
        (.okDeleted, σ.eraseP (fun u => u.task_id == id)) := by
      unfold delete_task
      rw [ht]
      dsimp only
      rw [if_pos hB]
    refine ⟨hr, ?_, ?_⟩
    · intro hnd
      rw [hr]
      exact get_eraseP_none hnd
    · intro u hu hne
      rw [hr]
      exact mem_eraseP_of_ne hu hne

theorem c5_delete_guard_witness :
    delete_task
      [sampleTask "a" .pendente none [], sampleTask "b" .pendente none ["a"]]
      "a" =
      (.errHasDependents ["b"],
       [sampleTask "a" .pendente none [],
        sampleTask "b" .pendente none ["a"]]) ∧
    delete_task
      [sampleTask "a" .pendente none [], sampleTask "b" .pendente none ["a"]]
      "b" =
      (.okDeleted, [sampleTask "a" .pendente none []]) ∧
    get_task_by_id (delete_task
      [sampleTask "a" .pendente none [], sampleTask "b" .pendente none ["a"]]
      "b").2 "b" = none := by
  have h1 := (c5_delete_guard
    [sampleTask "a" .pendente none [], sampleTask "b" .pendente none ["a"]]
    "a").2.1 (sampleTask "a" .pendente none []) rfl
    ⟨sampleTask "b" .pendente none ["a"], by decide⟩
  have h2 := (c5_delete_guard
    [sampleTask "a" .pendente none [], sampleTask "b" .pendente none ["a"]]
    "b").2.2 (sampleTask "b" .pendente none ["a"]) rfl (by decide)
  refine ⟨?_, ?_, h2.2.1 (by decide)⟩
  · rw [h1.1]
    rfl
  · rw [h2.1]
    rfl

/-- A provisional id mentioned in no task's `depends_on_ids` can never
be reached, so the cycle check from any starting id answers `false`. -/
theorem ccd_false_of_fresh {σ : Registry} {temp : String}
    (h : temp ∉ σ.flatMap Task.depends_on_ids) (d : String) :
    check_circular_dependency σ temp d [] = false := by
  cases hb : check_circular_dependency σ temp d [] with
  | false => rfl
  | true =>
    exact absurd (reaches_target_mem_deps ((ccd_iff_reaches σ temp d).mp hb))
      h

theorem validate_deps_all_live {σ : Registry} {temp : String} :
    ∀ {deps : List String}, validate_deps σ temp deps = none →
      ∀ d ∈ deps, (get_task_by_id σ d).isSome = true := by
  intro deps
  induction deps with
  | nil =>
    intro _ d hd
    cases hd
  | cons d rest ih =>
    intro h x hx
    rw [validate_deps] at h
    by_cases h1 : (get_task_by_id σ d).isNone = true
    · rw [if_pos h1] at h
      cases h
    · rw [if_neg h1] at h
      by_cases h2 : check_circular_dependency σ temp d [] = true
      · rw [if_pos h2] at h
        cases h
      · rw [if_neg h2] at h
        rcases List.mem_cons.mp hx with rfl | hx'
        · simpa [Option.isNone_iff_eq_none, Option.isSome_iff_ne_none]
            using h1
        · exact ih h x hx'

theorem validate_deps_notFound {σ : Registry} {temp : String}
    (hfresh : temp ∉ σ.flatMap Task.depends_on_ids) :
    ∀ {deps : List String}, (∃ d ∈ deps, get_task_by_id σ d = none) →
      ∃ d, validate_deps σ temp deps = some (.depNotFound d) ∧
        d ∈ deps ∧ get_task_by_id σ d = none := by
  intro deps
  induction deps with
  | nil =>
    rintro ⟨d, hd, -⟩
    cases hd
  | cons d rest ih =>
    rintro ⟨x, hx, hxnone⟩
    by_cases h1 : (get_task_by_id σ d).isNone = true
    · refine ⟨d, ?_, List.mem_cons_self _ _, ?_⟩
      · rw [validate_deps, if_pos h1]
      · simpa [Option.isNone_iff_eq_none] using h1
    · have hred : validate_deps σ temp (d :: rest) =
          validate_deps σ temp rest := by
        rw [validate_deps, if_neg h1,
          if_neg (by rw [ccd_false_of_fresh hfresh d]; simp)]
      have hxr : x ∈ rest := by
        rcases List.mem_cons.mp hx with rfl | hx'
        · exact absurd (by simp [hxnone]) h1
        · exact hx'
      obtain ⟨d', hval, hmem, hnone⟩ := ih ⟨x, hxr, hxnone⟩
      exact ⟨d', by rw [hred, hval], List.mem_cons_of_mem _ hmem, hnone⟩

theorem validate_deps_cycle {σ : Registry} {temp : String} :
    ∀ {deps : List String},
      (∀ d ∈ deps, (get_task_by_id σ d).isSome = true) →
      (∃ d ∈ deps, Reaches σ d temp) →
      ∃ d, validate_deps σ temp deps = some (.cycleDetected d) ∧
        d ∈ deps ∧ Reaches σ d temp := by
  intro deps
  induction deps with
  | nil =>
    rintro - ⟨d, hd, -⟩
    cases hd
  | cons d rest ih =>
    rintro hlive ⟨x, hx, hxr⟩
    have h1 : ¬ (get_task_by_id σ d).isNone = true := by
      have := hlive d (List.mem_cons_self _ _)
      simp only [Option.isNone_iff_eq_none]
      simp only [Option.isSome_iff_ne_none] at this
      exact fun h => this h
    by_cases h2 : check_circular_dependency σ temp d [] = true
    · exact ⟨d, by rw [validate_deps, if_neg h1, if_pos h2],
        List.mem_cons_self _ _, (ccd_iff_reaches σ temp d).mp h2⟩
    · have hred : validate_deps σ temp (d :: rest) =
          validate_deps σ temp rest := by
        rw [validate_deps, if_neg h1, if_neg h2]
      have hxrest : x ∈ rest := by
        rcases List.mem_cons.mp hx with rfl | hx'
        · exact absurd ((ccd_iff_reaches σ temp x).mpr hxr) h2
        · exact hx'
      obtain ⟨d', hval, hmem, hr⟩ := ih
        (fun y hy => hlive y (List.mem_cons_of_mem _ hy)) ⟨x, hxrest, hxr⟩
      exact ⟨d', by rw [hred, hval], List.mem_cons_of_mem _ hmem, hr⟩

theorem validate_deps_shape {σ : Registry} {temp : String}
    (hccd : ∀ d, check_circular_dependency σ temp d [] = false) :
    ∀ {deps : List String} {e : AddTaskError},
      validate_deps σ temp deps = some e → ∃ d, e = .depNotFound d := by
  intro deps
  induction deps with
  | nil =>
    intro e h
    cases h
  | cons d rest ih =>
    intro e h
    rw [validate_deps] at h
    by_cases h1 : (get_task_by_id σ d).isNone = true
    · rw [if_pos h1] at h
      cases h
      exact ⟨d, rfl⟩
    · rw [if_neg h1, if_neg (by rw [hccd d]; simp)] at h
      exact ih h

/-- C4: `add_task` validates the requested dependency ids against the
registry before constructing or inserting anything: any raised error
leaves the registry untouched; with a fresh provisional id an unknown
dependency id is reported as `NotFound`; success appends the new task
after the whole dependency list passed; and a dependency that reaches
the provisional id is reported as `CycleDetected`. -/
theorem c4_addTask_validation (σ : Registry)
    (temp title description : String) (due_date : Option Nat)
    (priority category : String) (eis : Option String)
    (deps projects contexts : List String) (now : Nat) :
    ((∃ e, (add_task σ temp title description due_date priority category
        eis deps projects contexts now).1 = .error e) →
      (add_task σ temp title description due_date priority category
        eis deps projects contexts now).2 = σ) ∧
    (temp ∉ σ.flatMap Task.depends_on_ids →
      (∃ d ∈ deps, get_task_by_id σ d = none) →
      ∃ d, (add_task σ temp title description due_date priority category
          eis deps projects contexts now).1 = .error (.depNotFound d) ∧
        d ∈ deps ∧ get_task_by_id σ d = none) ∧
    (∀ t, (add_task σ temp title description due_date priority category
        eis deps projects contexts now).1 = .ok t →
      (add_task σ temp title description due_date priority category
        eis deps projects contexts now).2 = σ ++ [t] ∧
      ∀ d ∈ deps, (get_task_by_id σ d).isSome = true) ∧
    ((∀ d ∈ deps, (get_task_by_id σ d).isSome = true) →
      (∃ d ∈ deps, Reaches σ d temp) →
      ∃ d, (add_task σ temp title description due_date priority category
          eis deps projects contexts now).1 =
            .error (.cycleDetected d) ∧
        d ∈ deps ∧ Reaches σ d temp) := by
  refine ⟨?_, ?_, ?_, ?_⟩
  · rintro ⟨e, he⟩
    unfold add_task at he ⊢
    cases hv : validate_deps σ temp deps with
    | some e' => rfl
    | none =>
      rw [hv] at he
      dsimp only at he ⊢
      cases hi : Task.init title description due_date priority category
          .pendente temp none none eis deps
          (((projects.filter (fun p => p ≠ "")).map normalize_tag).dedup)
          (((contexts.filter (fun c => c ≠ "")).map normalize_tag).dedup)
          now with
      | error m => rfl
      | ok t =>
        rw [hi] at he
        simp at he
  · intro hfresh hex
    obtain ⟨d, hval, hmem, hnone⟩ := validate_deps_notFound hfresh hex
    refine ⟨d, ?_, hmem, hnone⟩
    unfold add_task
    rw [hval]
  · intro t hok
    unfold add_task at hok ⊢
    cases hv : validate_deps σ temp deps with
    | some e' =>
      rw [hv] at hok
      dsimp only at hok
      simp at hok
    | none =>
      rw [hv] at hok
      dsimp only at hok ⊢
      cases hi : Task.init title description due_date priority category
          .pendente temp none none eis deps
          (((projects.filter (fun p => p ≠ "")).map normalize_tag).dedup)
          (((contexts.filter (fun c => c ≠ "")).map normalize_tag).dedup)
          now with
      | error m =>
        rw [hi] at hok
        simp at hok
      | ok t' =>
        rw [hi] at hok
        dsimp only at hok ⊢
        injection hok with h
        subst h
        exact ⟨rfl, validate_deps_all_live hv⟩
  · intro hlive hex
    obtain ⟨d, hval, hmem, hr⟩ := validate_deps_cycle hlive hex
    refine ⟨d, ?_, hmem, hr⟩
    unfold add_task
    rw [hval]

theorem c4_addTask_validation_witness :
    ((add_task [] "id0" "T" "" none "Média" "Geral" none ["z"] [] []
      3).1 = .error (.depNotFound "z")) ∧
    ((add_task [sampleTask "x" .pendente none ["t"]] "t" "T" "" none
      "Média" "Geral" none ["x"] [] [] 3).1 =
        .error (.cycleDetected "x")) ∧
    ((add_task [] "id0" "" "" none "Média" "Geral" none [] [] [] 3).2 =
      ([] : Registry)) := by
  have h1 := (c4_addTask_validation [] "id0" "T" "" none "Média" "Geral"
    none ["z"] [] [] 3).2.1 (by decide) ⟨"z", by decide, rfl⟩
  have hreach : Reaches [sampleTask "x" .pendente none ["t"]] "x" "t" :=
    Relation.TransGen.single ⟨sampleTask "x" .pendente none ["t"], rfl,
      by decide⟩
  have h2 := (c4_addTask_validation [sampleTask "x" .pendente none ["t"]]
    "t" "T" "" none "Média" "Geral" none ["x"] [] [] 3).2.2.2
    (by intro d hd
        rcases List.mem_cons.mp hd with rfl | hd'
        · rfl
        · cases hd')
    ⟨"x", by decide, hreach⟩
  have h3 := (c4_addTask_validation [] "id0" "" "" none "Média" "Geral"
    none [] [] [] 3).1 ⟨.validation "O título da tarefa não pode ser vazio.",
      rfl⟩
  refine ⟨?_, ?_, h3⟩
  · obtain ⟨d, hval, hmem, -⟩ := h1
    have hd : d = "z" := by
      rcases List.mem_cons.mp hmem with rfl | hd'
      · rfl
      · cases hd'
    rw [hd] at hval
    exact hval
  · obtain ⟨d, hval, hmem, -⟩ := h2
    have hd : d = "x" := by
      rcases List.mem_cons.mp hmem with rfl | hd'
      · rfl
      · cases hd'
    rw [hd] at hval
    exact hval

/-- C10: when the provisional id is distinct from every existing task
id and from every id in any `depends_on_ids` set (as a fresh UUID is),
the cycle check cannot answer `true` from any start, so `add_task`'s
`CycleDetected` branch is unreachable: it can only fail on an unknown
dependency id or on field validation. -/
theorem c10_fresh_id_no_cycle (σ : Registry) (temp : String)
    (h1 : temp ∉ σ.map Task.task_id)
    (h2 : temp ∉ σ.flatMap Task.depends_on_ids) :
    (∀ d, check_circular_dependency σ temp d [] = false) ∧
    (∀ (title description : String) (due_date : Option Nat)
       (priority category : String) (eis : Option String)
       (deps projects contexts : List String) (now : Nat)
       (d : String),
      (add_task σ temp title description due_date priority category eis
        deps projects contexts now).1 ≠ .error (.cycleDetected d)) := by
  have hccd := ccd_false_of_fresh h2
  refine ⟨hccd, ?_⟩
  intro title description due_date priority category eis deps projects
    contexts now d he
  unfold add_task at he
  cases hv : validate_deps σ temp deps with
  | some e =>
    obtain ⟨d', hd'⟩ := validate_deps_shape hccd hv
    subst hd'
    rw [hv] at he
    dsimp only at he
    simp at he
  | none =>
    rw [hv] at he
    dsimp only at he
    cases hi : Task.init title description due_date priority category
        .pendente temp none none eis deps
        (((projects.filter (fun p => p ≠ "")).map normalize_tag).dedup)
        (((contexts.filter (fun c => c ≠ "")).map normalize_tag).dedup)
        now with
    | error m =>
      rw [hi] at he
      simp at he
    | ok t =>
      rw [hi] at he
      simp at he

theorem c10_fresh_id_no_cycle_witness :
    check_circular_dependency [sampleTask "a" .pendente none ["b"]]
      "c" "b" [] = false ∧
    (add_task [sampleTask "a" .pendente none ["b"]] "c" "T" "" none
      "Média" "Geral" none ["b"] [] [] 3).1 ≠
      .error (.cycleDetected "b") := by
  have h := c10_fresh_id_no_cycle [sampleTask "a" .pendente none ["b"]]
    "c" (by decide) (by decide)
  exact ⟨h.1 "b", h.2 "T" "" none "Média" "Geral" none ["b"] [] [] 3 "b"⟩

/-- Data-model invariant 5: the completion instant is present iff the
status is `Concluída`. -/
def completionConsistent (t : Task) : Prop :=
  t.completion_date ≠ none ↔ t.status = .concluida

instance (t : Task) : Decidable (completionConsistent t) := by
  unfold completionConsistent
  infer_instance

/-- C8: construction normalizes any (status, completion timestamp)
combination to satisfy the invariant — a `Pendente` task never keeps a
timestamp, a `Concluída` one always gets one — and the two status
transitions preserve it (completing sets the instant, reverting clears
it). Together with every other operation mutating status only through
`mark_complete` / `mark_pending`, the invariant holds after every
operation. -/
theorem c8_completion_timestamp_iff_complete :
    (∀ (title description : String) (due_date : Option Nat)
       (priority category : String) (status : Status) (task_id : String)
       (creation_date completion_date : Option Nat)
       (eis : Option String) (deps projects contexts : List String)
       (now : Nat) (t : Task),
      Task.init title description due_date priority category status
        task_id creation_date completion_date eis deps projects contexts
        now = .ok t →
      completionConsistent t) ∧
    (∀ (t : Task) (now : Nat), completionConsistent t →
      completionConsistent (t.mark_complete now)) ∧
    (∀ t : Task, completionConsistent t →
      completionConsistent t.mark_pending) := by
  refine ⟨?_, ?_, ?_⟩
  · intro title description due_date priority category status task_id
      creation_date completion_date eis deps projects contexts now t h
    unfold Task.init at h
    by_cases h1 : title = ""
    · rw [if_pos h1] at h
      cases h
    · rw [if_neg h1] at h
      by_cases h2 : priority ∉ VALID_PRIORITIES
      · rw [if_pos h2] at h
        cases h
      · rw [if_neg h2] at h
        by_cases h3 : (eis.any fun q => decide (q ∉ EISENHOWER_KEYS))
            = true
        · rw [if_pos h3] at h
          cases h
        · rw [if_neg h3] at h
          dsimp only at h
          injection h with h'
          subst h'
          unfold completionConsistent
          cases status with
          | pendente => cases completion_date <;> simp
          | concluida => cases completion_date <;> simp
  · intro t now h
    unfold Task.mark_complete
    by_cases hs : t.status = .pendente
    · rw [if_pos hs]
      unfold completionConsistent
      simp
    · rw [if_neg hs]
      exact h
  · intro t h
    unfold Task.mark_pending
    by_cases hs : t.status = .concluida
    · rw [if_pos hs]
      unfold completionConsistent
      simp
    · rw [if_neg hs]
      exact h

theorem c8_completion_timestamp_iff_complete_witness :
    completionConsistent
      { task_id := "i", title := "T", description := "",
        priority := "Média", category := "Geral", status := .pendente,
        creation_date := 9, completion_date := none, due_date := none,
        eisenhower_quadrant := none, depends_on_ids := [],
        projects := [], contexts := [] } ∧
    completionConsistent ((sampleTask "a" .pendente none []
      ).mark_complete 3) ∧
    completionConsistent (sampleTask "b" .concluida (some 2)
      []).mark_pending := by
  have h := c8_completion_timestamp_iff_complete
  refine ⟨?_, ?_, ?_⟩
  · exact h.1 "T" "" none "Média" "Geral" .pendente "i" none (some 5)
      none [] [] [] 9 _ rfl
  · exact h.2.1 (sampleTask "a" .pendente none []) 3 (by decide)
  · exact h.2.2 (sampleTask "b" .concluida (some 2) []) (by decide)

/-- The tag family a `TagType` selects on a task (the source's
`tag_set = task.projects if tag_type == "projeto" else task.contexts`). -/
def Task.tagsOf (t : Task) : TagType → List String
  | .projeto => t.projects
  | .contexto => t.contexts

/-- `addTagUpdate` never changes the task id. -/
theorem addTagUpdate_id (n : String) (tt : TagType) (t : Task) :
    (addTagUpdate n tt t).task_id = t.task_id := by
  cases tt <;> rfl

/-- `addTagUpdate` inserts the tag into the selected family. -/
theorem addTagUpdate_tagsOf (n : String) (tt : TagType) (t : Task) :
    (addTagUpdate n tt t).tagsOf tt = (t.tagsOf tt).insert n := by
  cases tt <;> rfl

/-- Closed form of `_add_tag_to_task` at a live task and a non-empty
normalized tag: no-op success when the normalized tag is present,
otherwise insertion of the normalized tag. -/
theorem add_tag_spec (σ : Registry) (id : String) (t : Task)
    (tag : String) (tt : TagType) (ht : get_task_by_id σ id = some t)
    (hne : ¬ normalize_tag tag = "") :
    add_tag_to_task σ id tag tt =
      if normalize_tag tag ∈ t.tagsOf tt then (.okAlreadyPresent, σ)
      else (.okAdded,
        updateTask σ id (addTagUpdate (normalize_tag tag) tt)) := by
  unfold add_tag_to_task
  rw [ht]
  dsimp only
  rw [if_neg hne]
  cases tt with
  | projeto => rfl
  | contexto => rfl

/-- `_remove_tag_from_task` fails and changes nothing when the
normalized tag is not on the task. -/
theorem remove_tag_notPresent (σ : Registry) (id : String) (t : Task)
    (tag : String) (tt : TagType) (ht : get_task_by_id σ id = some t)
    (hnot : normalize_tag tag ∉ t.tagsOf tt) :
    remove_tag_from_task σ id tag tt = (.errNotPresent, σ) := by
  unfold remove_tag_from_task
  rw [ht]
  dsimp only
  cases tt with
  | projeto =>
    rw [if_pos (by exact hnot)]
  | contexto =>
    rw [if_pos (by exact hnot)]

/-- C9: tag addition normalizes first (trim, collapse whitespace runs,
lowercase, all inside `normalize_tag`) and is idempotent after
normalization: adding two spellings with the same normalized form
succeeds both times, the second as a no-op, and the tag is stored
exactly once (given the task's tag list is duplicate-free, as Python's
`set` guarantees); removing a tag whose normalized form is absent
fails with `NotFound` and changes nothing. -/
theorem c9_tag_idempotence (σ : Registry) (id : String) (t : Task)
    (tt : TagType) (a b : String) (ht : get_task_by_id σ id = some t)
    (hab : normalize_tag a = normalize_tag b)
    (hne : normalize_tag a ≠ "") :
    ((add_tag_to_task σ id a tt).1.retBool = true ∧
     add_tag_to_task (add_tag_to_task σ id a tt).2 id b tt =
       (.okAlreadyPresent, (add_tag_to_task σ id a tt).2) ∧
     (∃ t', get_task_by_id (add_tag_to_task σ id a tt).2 id = some t' ∧
       t'.tagsOf tt = (if normalize_tag a ∈ t.tagsOf tt then t.tagsOf tt
         else (t.tagsOf tt).insert (normalize_tag a)) ∧
       ((t.tagsOf tt).Nodup →
         (t'.tagsOf tt).count (normalize_tag a) = 1))) ∧
    (normalize_tag a ∉ t.tagsOf tt →
      remove_tag_from_task σ id a tt = (.errNotPresent, σ)) := by
  have hneb : ¬ normalize_tag b = "" := by
    rw [← hab]
    exact hne
  refine ⟨?_, fun hnot => remove_tag_notPresent σ id t a tt ht hnot⟩
  by_cases hmem : normalize_tag a ∈ t.tagsOf tt
  · have h1 : add_tag_to_task σ id a tt = (.okAlreadyPresent, σ) := by
      rw [add_tag_spec σ id t a tt ht hne, if_pos hmem]
    have h2 : add_tag_to_task (add_tag_to_task σ id a tt).2 id b tt =
        (.okAlreadyPresent, (add_tag_to_task σ id a tt).2) := by
      rw [h1]
      rw [add_tag_spec σ id t b tt ht hneb, if_pos (hab ▸ hmem)]
    refine ⟨by rw [h1]; rfl, h2, t, by rw [h1]; exact ht, ?_, ?_⟩
    · rw [if_pos hmem]
    · intro hnd
      exact List.count_eq_one_of_mem hnd hmem
  · have h1 : add_tag_to_task σ id a tt =
        (.okAdded,
          updateTask σ id (addTagUpdate (normalize_tag a) tt)) := by
      rw [add_tag_spec σ id t a tt ht hne, if_neg hmem]
    have hget1 : get_task_by_id (add_tag_to_task σ id a tt).2 id =
        some (addTagUpdate (normalize_tag a) tt t) := by
      rw [h1]
      rw [get_updateTask σ id _ (addTagUpdate_id (normalize_tag a) tt)
        id, if_pos rfl, ht]
      rfl
    have h2 : add_tag_to_task (add_tag_to_task σ id a tt).2 id b tt =
        (.okAlreadyPresent, (add_tag_to_task σ id a tt).2) := by
      rw [add_tag_spec (add_tag_to_task σ id a tt).2 id _ b tt hget1
        hneb]
      rw [if_pos (by
        rw [addTagUpdate_tagsOf, ← hab]
        exact List.mem_insert_iff.mpr (Or.inl rfl))]
    refine ⟨by rw [h1]; rfl, h2, _, hget1, ?_, ?_⟩
    · rw [if_neg hmem]
      exact addTagUpdate_tagsOf (normalize_tag a) tt t
    · intro hnd
      rw [addTagUpdate_tagsOf]
      rw [List.insert_of_not_mem hmem]
      rw [List.count_cons_self]
      rw [List.count_eq_zero_of_not_mem hmem]

theorem c9_tag_idempotence_witness :
    (add_tag_to_task [sampleTask "a" .pendente none []] "a" " Work "
      .projeto).1.retBool = true ∧
    add_tag_to_task (add_tag_to_task [sampleTask "a" .pendente none []]
      "a" " Work " .projeto).2 "a" "work" .projeto =
      (.okAlreadyPresent,
       (add_tag_to_task [sampleTask "a" .pendente none []] "a" " Work "
         .projeto).2) ∧
    remove_tag_from_task [sampleTask "a" .pendente none []] "a" " Work "
      .projeto =
      (.errNotPresent, [sampleTask "a" .pendente none []]) := by
  have h := c9_tag_idempotence [sampleTask "a" .pendente none []] "a"
    (sampleTask "a" .pendente none []) .projeto " Work " "work" rfl
    (by decide) (by decide)
  exact ⟨h.1.1, h.1.2.1, h.2 (by decide)⟩

end EVE
